import Mathlib

/-!
# Verification of the InspectPCB dataset conversion and split pipeline

Shallow embedding of the dataset-preparation logic of the InspectPCB
repository:

* `convert_deeppcb.py` — `convert_annotation_file` (lines 89-135) and
  `collect_deeppcb_dataset` (lines 7-87);
* `prepare_data.py` — `split_unified_dataset` (lines 7-119);
* `fix_and_setup_dataset.py` — `step3_split_dataset` (lines 153-208).

The Python code performs its coordinate normalization and its split-index
computation in CPython `float` arithmetic (IEEE-754 binary64) and in
CPython `int`/`float` mixed arithmetic.  CPython's `int/int` true
division, `int`-to-`float` conversion, `float*float`, `float+float` and
`float/float` are all correctly rounded to nearest, ties to even.  We
therefore model every `float` value as the exact rational it denotes and
every float operation as exact rational arithmetic followed by `fl`,
correct rounding to 53 significant bits (round half to even).  The
exponent is unbounded in the model: overflow to infinity and subnormal
underflow cannot occur for pixel coordinates and image dimensions (they
would require magnitudes near 2^1024), so they are not modelled.

File contents: generic arithmetic infrastructure (`natLog2`, `ceilLog2`,
`roundHalfEven`, `floorLog2`, `fl`, `round6`), then the embedded program
definitions, then one theorem per claim C1-C10 of the specification.
-/

/-! ## Base-2 logarithms by fuel-based recursion (kernel-computable) -/

/-- `natLog2Fuel fuel n` computes `⌊log₂ n⌋` for `1 ≤ n ≤ fuel` by repeated
halving.  Fuel-based structural recursion so that the kernel can evaluate it
inside `decide`. -/
def natLog2Fuel : ℕ → ℕ → ℕ
  | 0, _ => 0
  | fuel + 1, n => if n ≤ 1 then 0 else natLog2Fuel fuel (n / 2) + 1

/-- `⌊log₂ n⌋` for `n ≥ 1` (junk value `0` at `n = 0`). -/
def natLog2 (n : ℕ) : ℕ := natLog2Fuel n n

/-- `ceilLog2Fuel fuel n` computes `⌈log₂ n⌉` for `1 ≤ n ≤ fuel`. -/
def ceilLog2Fuel : ℕ → ℕ → ℕ
  | 0, _ => 0
  | fuel + 1, n => if n ≤ 1 then 0 else ceilLog2Fuel fuel ((n + 1) / 2) + 1

/-- `⌈log₂ n⌉` for `n ≥ 1` (junk value `0` at `n = 0`). -/
def ceilLog2 (n : ℕ) : ℕ := ceilLog2Fuel n n

/-- Round a rational to the nearest integer, ties to even (the rounding mode
of every IEEE-754 binary64 operation and of CPython's float formatting). -/
def roundHalfEven (q : ℚ) : ℤ :=
  if q - ⌊q⌋ < 1 / 2 then ⌊q⌋
  else if 1 / 2 < q - ⌊q⌋ then ⌊q⌋ + 1
  else if 2 ∣ ⌊q⌋ then ⌊q⌋ else ⌊q⌋ + 1

/-- `⌊log₂ q⌋` for a positive rational `q`. -/
def floorLog2 (q : ℚ) : ℤ :=
  if 1 ≤ q then (natLog2 ⌊q⌋.toNat : ℤ) else -(ceilLog2 ⌈q⁻¹⌉.toNat : ℤ)

/-- Correct rounding of a positive rational to 53 significant bits,
round half to even.  This is the value an IEEE-754 binary64 operation
returns when its exact result is `q` (no overflow/underflow modelled). -/
def flPos (q : ℚ) : ℚ :=
  (roundHalfEven (q * (2 : ℚ) ^ ((52 : ℤ) - floorLog2 q)) : ℚ)
    * (2 : ℚ) ^ (floorLog2 q - (52 : ℤ))

/-- CPython `float` of the exact rational result `q` of an arithmetic
operation: correct rounding to binary64 (round half to even). -/
def fl (q : ℚ) : ℚ :=
  if q = 0 then 0 else if 0 < q then flPos q else -flPos (-q)

/-- CPython `f"{v:.6f}"` formatting of a float `v`: correctly rounded to 6
decimal places, ties to even.  The printed text is represented by the exact
rational value of its digits. -/
def round6 (v : ℚ) : ℚ := (roundHalfEven (v * 1000000) : ℚ) / 1000000

/-! ## The dataset splitter (`prepare_data.py::split_unified_dataset` and
`fix_and_setup_dataset.py::step3_split_dataset`)

The random shuffle of line 84 / 184 is modelled by quantifying over an
arbitrary permutation of the valid pairs; the slicing below receives the
already-shuffled list. -/

/-- Default argument `train_ratio=0.7` (prepare_data.py line 8), already a
binary64 value when the function body runs. -/
def train_ratio : ℚ := fl (7 / 10)

/-- Default argument `val_ratio=0.2` (prepare_data.py line 8). -/
def val_ratio : ℚ := fl (2 / 10)

/-- `train_end = int(total_pairs * train_ratio)` (prepare_data.py line 88):
the int is converted to binary64, the product is rounded once, and `int()`
truncates (= floor, the value being nonnegative). -/
def train_end (n : ℕ) : ℕ := ⌊fl (fl (n : ℚ) * train_ratio)⌋.toNat

/-- `val_end = int(total_pairs * (train_ratio + val_ratio))`
(prepare_data.py line 89): the ratio sum is one rounded float addition. -/
def val_end (n : ℕ) : ℕ := ⌊fl (fl (n : ℚ) * fl (train_ratio + val_ratio))⌋.toNat

/-- The three slices `valid_pairs[:train_end]`,
`valid_pairs[train_end:val_end]`, `valid_pairs[val_end:]`
(prepare_data.py lines 92-96).  A Python slice `l[a:b]` with nonnegative
clamped bounds is `(l.drop a).take (b - a)` (truncated subtraction). -/
def split_unified_dataset_splits {α : Type} (valid_pairs : List α) :
    List α × List α × List α :=
  (valid_pairs.take (train_end valid_pairs.length),
   (valid_pairs.drop (train_end valid_pairs.length)).take
     (val_end valid_pairs.length - train_end valid_pairs.length),
   valid_pairs.drop (val_end valid_pairs.length))

/-- `train_end = int(len(valid_pairs) * 0.7)` (fix_and_setup_dataset.py
line 186). -/
def step3_train_end (n : ℕ) : ℕ := ⌊fl (fl (n : ℚ) * fl (7 / 10))⌋.toNat

/-- `val_end = int(len(valid_pairs) * 0.9)` (fix_and_setup_dataset.py
line 187). -/
def step3_val_end (n : ℕ) : ℕ := ⌊fl (fl (n : ℚ) * fl (9 / 10))⌋.toNat

/-- The slices of `step3_split_dataset` (fix_and_setup_dataset.py
lines 189-193). -/
def step3_split_dataset_splits {α : Type} (valid_pairs : List α) :
    List α × List α × List α :=
  (valid_pairs.take (step3_train_end valid_pairs.length),
   (valid_pairs.drop (step3_train_end valid_pairs.length)).take
     (step3_val_end valid_pairs.length - step3_train_end valid_pairs.length),
   valid_pairs.drop (step3_val_end valid_pairs.length))

/-- `t ∪ v ∪ te` is a partition of `orig`: together they are a permutation
of `orig`, and (when `orig` has no duplicates) they are pairwise disjoint. -/
def isPartitionOf {α : Type} (t v te orig : List α) : Prop :=
  (t ++ (v ++ te)).Perm orig ∧
    (orig.Nodup → t.Disjoint v ∧ t.Disjoint te ∧ v.Disjoint te)

/-! ## The annotation converter (`convert_deeppcb.py::convert_annotation_file`) -/

/-- ASCII whitespace recognized by CPython `str.strip()` / `str.split()`. -/
def isPySpace (c : Char) : Bool :=
  c = ' ' || c = '\t' || c = '\n' || c = '\r' || c = '\x0b' || c = '\x0c'

/-- `line.strip()` (line 100). -/
def pyStrip (l : List Char) : List Char :=
  ((l.dropWhile isPySpace).reverse.dropWhile isPySpace).reverse

/-- `line.split(sep)` for a one-character separator (line 108): splits at
every occurrence, keeping empty fields. -/
def pySplitOn (sep : Char) : List Char → List (List Char)
  | [] => [[]]
  | c :: rest =>
    if c = sep then [] :: pySplitOn sep rest
    else
      match pySplitOn sep rest with
      | [] => [[c]]
      | p :: ps => (c :: p) :: ps

/-- Accumulator loop for `line.split()` with no argument. -/
def pySplitWsAux : List Char → List Char → List (List Char)
  | [], cur => if cur.isEmpty then [] else [cur.reverse]
  | c :: rest, cur =>
    if isPySpace c then
      if cur.isEmpty then pySplitWsAux rest []
      else cur.reverse :: pySplitWsAux rest []
    else pySplitWsAux rest (c :: cur)

/-- `line.split()` with no argument (line 110): splits on runs of
whitespace, discarding empty fields. -/
def pySplitWs (l : List Char) : List (List Char) := pySplitWsAux l []

/-- Decimal digit accumulator for `int(s)`. -/
def pyDigitsAux : List Char → ℕ → Option ℕ
  | [], acc => some acc
  | c :: rest, acc =>
    if '0' ≤ c ∧ c ≤ '9' then
      pyDigitsAux rest (acc * 10 + (c.toNat - '0'.toNat))
    else none

/-- CPython `int(s)` on a field (line 113): optional surrounding
whitespace, optional sign, at least one decimal digit.  (CPython 3 also
accepts single underscores between digits; no DeepPCB annotation contains
them, and they are not modelled.) -/
def pyInt? (s : List Char) : Option ℤ :=
  match pyStrip s with
  | [] => none
  | '+' :: ds =>
    if ds.isEmpty then none else (pyDigitsAux ds 0).map fun n => (n : ℤ)
  | '-' :: ds =>
    if ds.isEmpty then none else (pyDigitsAux ds 0).map fun n => -(n : ℤ)
  | ds => (pyDigitsAux ds 0).map fun n => (n : ℤ)

/-- Parsing of one annotation line (lines 100-113): strip; skip blank
lines; split on comma if one is present, else on whitespace; require at
least 5 fields; `map(int, parts[:5])` (a `ValueError` in any of the five
conversions is caught at line 127 and skips the line). -/
def parseLine (line : List Char) : Option (ℤ × ℤ × ℤ × ℤ × ℤ) :=
  let s := pyStrip line
  if s.isEmpty then none
  else
    let parts := if s.contains ',' then pySplitOn ',' s else pySplitWs s
    match parts with
    | p1 :: p2 :: p3 :: p4 :: p5 :: _ =>
      match pyInt? p1, pyInt? p2, pyInt? p3, pyInt? p4, pyInt? p5 with
      | some x1, some y1, some x2, some y2, some c => some (x1, y1, x2, y2, c)
      | _, _, _, _, _ => none
    | _ => none

/-- Class-id remap (lines 121-123): `if class_id > 0: class_id -= 1`.
DeepPCB ids 1-6 become 0-5; an id of 0 (or any negative id) is unchanged. -/
def remapClass (c : ℤ) : ℤ := if 0 < c then c - 1 else c

/-- `center_x = ((x1 + x2) / 2) / w` (line 116) for dimension `d` and
endpoints `a ≤ b`: `(x1+x2)/2` is one correctly rounded CPython int/int
true division; `w` is then converted to float and one more correctly
rounded float division is performed. -/
def centerNorm (d a b : ℤ) : ℚ := fl (fl (((a : ℚ) + b) / 2) / fl (d : ℚ))

/-- `bbox_width = (x2 - x1) / w` (line 118): a single correctly rounded
int/int true division. -/
def sizeNorm (d a b : ℤ) : ℚ := fl (((b : ℚ) - a) / (d : ℚ))

/-- The formula of line 116 read in exact rational arithmetic (the
"exact arithmetic" reading of claim C4's round-trip law). -/
def centerNormExact (d a b : ℤ) : ℚ := ((a : ℚ) + b) / 2 / (d : ℚ)

/-- The formula of line 118 read in exact rational arithmetic. -/
def sizeNormExact (d a b : ℤ) : ℚ := ((b : ℚ) - a) / (d : ℚ)

/-- One line written to the output file (line 125): the text
`f"{class_id} {center_x:.6f} {center_y:.6f} {bbox_width:.6f} {bbox_height:.6f}"`,
represented by the exact values of its five fields. -/
structure YoloLine where
  cls : ℤ
  cx : ℚ
  cy : ℚ
  bw : ℚ
  bh : ℚ
deriving DecidableEq

/-- The output line produced from one parsed annotation line
(lines 115-125). -/
def mkYoloLine (w h : ℕ) (x1 y1 x2 y2 c : ℤ) : YoloLine :=
  { cls := remapClass c
    cx := round6 (centerNorm (w : ℤ) x1 x2)
    cy := round6 (centerNorm (h : ℤ) y1 y2)
    bw := round6 (sizeNorm (w : ℤ) x1 x2)
    bh := round6 (sizeNorm (h : ℤ) y1 y2) }

/-- The per-line loop of `convert_annotation_file` (lines 99-129) run on
the list of input lines: returns the lines written to the output file and
whether the loop completed.  If a line parses and `w` or `h` is zero,
line 116/117 raises `ZeroDivisionError`, which is not caught by the inner
`except (ValueError, IndexError)` (line 127); the loop aborts with nothing
written for that line and the outer `except` (line 133) reports failure. -/
def convertLines (w h : ℕ) : List (List Char) → List YoloLine × Bool
  | [] => ([], true)
  | line :: rest =>
    match parseLine line with
    | none => convertLines w h rest
    | some (x1, y1, x2, y2, c) =>
      if w = 0 ∨ h = 0 then ([], false)
      else
        ((mkYoloLine w h x1 y1 x2 y2 c) :: (convertLines w h rest).1,
          (convertLines w h rest).2)

/-- `convert_annotation_file` (lines 89-135).  `img` is the outcome of
`Image.open(image_file)` (line 94): `none` models an exception, in which
case the function returns `False` before the output file is ever opened
and the file keeps its previous content `old`; `some (w, h)` gives the
image dimensions.  Opening the output file with mode `'w'` (line 98)
discards `old`.  Returns `(return value, final output-file content)`. -/
def convert_annotation_file (img : Option (ℕ × ℕ)) (old : List YoloLine)
    (lines : List (List Char)) : Bool × List YoloLine :=
  match img with
  | none => (false, old)
  | some (w, h) => ((convertLines w h lines).2, (convertLines w h lines).1)

/-! ## Failure signalling and the collector
(`prepare_data.py::split_unified_dataset`,
`convert_deeppcb.py::collect_deeppcb_dataset`)

The file system those functions walk is abstracted into an environment:
label files are numbered, and the image lookups of lines 50-64 and 69-75
of prepare_data.py become functions returning the image found, if any. -/

/-- What `split_unified_dataset` sees: the label files found by `glob`
(line 37); for each label file, the image found by the exact-name search
(lines 50-64), and the image found by the substring fallback scan
(lines 69-75), when they exist. -/
structure SplitEnv where
  labelFiles : List ℕ
  findImage : ℕ → Option ℕ
  fallbackImage : ℕ → Option ℕ

/-- `valid_pairs` (lines 44-75): one `(image, label)` pair per label file
for which the exact search or, failing that, the fallback scan finds an
image. -/
def validPairs (env : SplitEnv) : List (ℕ × ℕ) :=
  env.labelFiles.filterMap fun lf =>
    match env.findImage lf with
    | some img => some (img, lf)
    | none => (env.fallbackImage lf).map fun img => (img, lf)

/-- The Boolean returned by `split_unified_dataset`: `False` at line 41
(no label files) and at line 81 (no valid pairs), `True` at line 119. -/
def split_unified_dataset_result (env : SplitEnv) : Bool :=
  if env.labelFiles.isEmpty then false
  else if (validPairs env).isEmpty then false
  else true

/-- One annotation file in a group, as the collector sees it: whether a
`<base>_test.<ext>` image was found (lines 57-70), and whether
`convert_annotation_file` returned `True` on it (line 81). -/
structure AnnEntry where
  imageFound : Bool
  convertOk : Bool

/-- One `group*` directory (lines 31-49): whether both an image
subdirectory and a `*_not` annotation subdirectory were found, and the
annotation files inside. -/
structure GroupDir where
  hasBothSubdirs : Bool
  annFiles : List AnnEntry

/-- Successful conversions contributed by one group; a group missing a
subdirectory is skipped entirely (lines 47-49), and an annotation with no
test image is skipped (line 70). -/
def groupConverted (g : GroupDir) : ℕ :=
  if g.hasBothSubdirs then
    (g.annFiles.filter fun a => a.imageFound && a.convertOk).length
  else 0

/-- What `collect_deeppcb_dataset` sees: whether `DeepPCB/PCBData` exists
(line 21) and the `group*` directories inside it (line 25). -/
structure CollectEnv where
  pcbDataExists : Bool
  groups : List GroupDir

/-- `total_converted` after the main loop (lines 28-84). -/
def totalConverted (env : CollectEnv) : ℕ :=
  (env.groups.map groupConverted).sum

/-- The Boolean returned by `collect_deeppcb_dataset`: `False` at line 23
if `PCBData` is missing, else `total_converted > 0` (line 87). -/
def collect_deeppcb_dataset_result (env : CollectEnv) : Bool :=
  if !env.pcbDataExists then false
  else if 0 < totalConverted env then true else false

/-- The two output directories of the collector, as lists of file names in
creation order. -/
structure CollectState where
  images : List String
  labels : List String

/-- The per-pair body of the collector loop (lines 72-84): the test image
is copied first (line 75, `shutil.copy2`), and only then is the annotation
conversion attempted (line 81).  A conversion that fails at `Image.open`
writes no label file, and the already-copied image is not removed. -/
def processPair (st : CollectState) (imageName labelName : String)
    (convertOk : Bool) : CollectState :=
  let afterCopy : CollectState := { st with images := st.images ++ [imageName] }
  if convertOk then { afterCopy with labels := afterCopy.labels ++ [labelName] }
  else afterCopy

theorem natLog2Fuel_spec : ∀ (fuel n : ℕ), 1 ≤ n → n ≤ fuel →
    2 ^ natLog2Fuel fuel n ≤ n ∧ n < 2 ^ (natLog2Fuel fuel n + 1) := by
  intro fuel
  induction fuel with
  | zero => intro n h1 h2; omega
  | succ fuel ih =>
    intro n h1 h2
    by_cases hsmall : n ≤ 1
    · have hn : n = 1 := by omega
      simp [natLog2Fuel, hsmall, hn]
    · have h2n : 2 ≤ n := by omega
      have hrec := ih (n / 2) (by omega) (by omega)
      simp only [natLog2Fuel, hsmall, if_false]
      obtain ⟨hlo, hhi⟩ := hrec
      constructor
      · calc 2 ^ (natLog2Fuel fuel (n / 2) + 1)
              = 2 * 2 ^ natLog2Fuel fuel (n / 2) := by ring
          _ ≤ 2 * (n / 2) := by omega
          _ ≤ n := by omega
      · have : n / 2 + 1 ≤ 2 ^ (natLog2Fuel fuel (n / 2) + 1) := hhi
        calc n ≤ 2 * (n / 2) + 1 := by omega
          _ < 2 * 2 ^ (natLog2Fuel fuel (n / 2) + 1) := by omega
          _ = 2 ^ (natLog2Fuel fuel (n / 2) + 1 + 1) := by ring

theorem natLog2_spec (n : ℕ) (h : 1 ≤ n) :
    2 ^ natLog2 n ≤ n ∧ n < 2 ^ (natLog2 n + 1) :=
  natLog2Fuel_spec n n h le_rfl

theorem ceilLog2Fuel_spec : ∀ (fuel n : ℕ), 1 ≤ n → n ≤ fuel →
    n ≤ 2 ^ ceilLog2Fuel fuel n ∧ (2 ≤ n → 2 ^ (ceilLog2Fuel fuel n - 1) < n) := by
  intro fuel
  induction fuel with
  | zero => intro n h1 h2; omega
  | succ fuel ih =>
    intro n h1 h2
    by_cases hsmall : n ≤ 1
    · have hn : n = 1 := by omega
      simp [ceilLog2Fuel, hsmall, hn]
    · have h2n : 2 ≤ n := by omega
      have hm1 : 1 ≤ (n + 1) / 2 := by omega
      have hmf : (n + 1) / 2 ≤ fuel := by omega
      have hrec := ih ((n + 1) / 2) hm1 hmf
      simp only [ceilLog2Fuel, hsmall, if_false]
      obtain ⟨hlo, hhi⟩ := hrec
      constructor
      · calc n ≤ 2 * ((n + 1) / 2) := by omega
          _ ≤ 2 * 2 ^ ceilLog2Fuel fuel ((n + 1) / 2) := by omega
          _ = 2 ^ (ceilLog2Fuel fuel ((n + 1) / 2) + 1) := by ring
      · intro _
        by_cases hm2 : 2 ≤ (n + 1) / 2
        · have hstrict := hhi hm2
          have hk1 : 1 ≤ ceilLog2Fuel fuel ((n + 1) / 2) := by
            by_contra hk0
            have : ceilLog2Fuel fuel ((n + 1) / 2) = 0 := by omega
            rw [this] at hlo
            omega
          have hpow : 2 ^ (ceilLog2Fuel fuel ((n + 1) / 2) + 1 - 1)
              = 2 * 2 ^ (ceilLog2Fuel fuel ((n + 1) / 2) - 1) := by
            have : ceilLog2Fuel fuel ((n + 1) / 2) + 1 - 1
                = (ceilLog2Fuel fuel ((n + 1) / 2) - 1) + 1 := by omega
            rw [this]; ring
          rw [hpow]
          omega
        · -- (n+1)/2 = 1, so n = 2 and the recursive call returns 0
          have hn2 : n = 2 := by omega
          have hk0 : ceilLog2Fuel fuel ((n + 1) / 2) = 0 := by
            have h11 : (n + 1) / 2 = 1 := by omega
            rw [h11]
            cases fuel with
            | zero => rfl
            | succ f => simp [ceilLog2Fuel]
          rw [hk0, hn2]
          norm_num

theorem ceilLog2_spec (n : ℕ) (h : 1 ≤ n) :
    n ≤ 2 ^ ceilLog2 n ∧ (2 ≤ n → 2 ^ (ceilLog2 n - 1) < n) :=
  ceilLog2Fuel_spec n n h le_rfl

/-! ## Round half to even on rationals -/

theorem roundHalfEven_ge_floor (q : ℚ) : ⌊q⌋ ≤ roundHalfEven q := by
  unfold roundHalfEven
  split_ifs <;> omega

theorem roundHalfEven_le_floor_add_one (q : ℚ) : roundHalfEven q ≤ ⌊q⌋ + 1 := by
  unfold roundHalfEven
  split_ifs <;> omega

theorem abs_roundHalfEven_sub (q : ℚ) : |(roundHalfEven q : ℚ) - q| ≤ 1 / 2 := by
  have h0 : (⌊q⌋ : ℚ) ≤ q := Int.floor_le q
  have h1 : q < (⌊q⌋ : ℚ) + 1 := Int.lt_floor_add_one q
  unfold roundHalfEven
  split_ifs with ha hb hc
  · rw [abs_sub_comm, abs_of_nonneg (by linarith)]; linarith
  · have hcast : ((⌊q⌋ + 1 : ℤ) : ℚ) = (⌊q⌋ : ℚ) + 1 := by push_cast; ring
    rw [hcast, abs_of_nonneg (by linarith)]; linarith
  · rw [abs_sub_comm, abs_of_nonneg (by linarith)]; linarith
  · have hcast : ((⌊q⌋ + 1 : ℤ) : ℚ) = (⌊q⌋ : ℚ) + 1 := by push_cast; ring
    rw [hcast, abs_of_nonneg (by linarith)]; linarith

theorem roundHalfEven_mono {a b : ℚ} (hab : a ≤ b) :
    roundHalfEven a ≤ roundHalfEven b := by
  have hf : ⌊a⌋ ≤ ⌊b⌋ := Int.floor_le_floor hab
  rcases lt_or_eq_of_le hf with hlt | heq
  · calc roundHalfEven a ≤ ⌊a⌋ + 1 := roundHalfEven_le_floor_add_one a
      _ ≤ ⌊b⌋ := by omega
      _ ≤ roundHalfEven b := roundHalfEven_ge_floor b
  · have hfr : a - ⌊a⌋ ≤ b - ⌊b⌋ := by
      rw [← heq]; linarith
    unfold roundHalfEven
    rw [← heq]
    split_ifs <;> first | omega | (exfalso; linarith)

/-! ## Correctly rounded binary64 ("Python float") model -/

theorem floorLog2_spec (q : ℚ) (hq : 0 < q) :
    (2 : ℚ) ^ floorLog2 q ≤ q ∧ q < (2 : ℚ) ^ (floorLog2 q + 1) := by
  unfold floorLog2
  split_ifs with h1
  · -- q ≥ 1: reduce to the characterization of natLog2 on ⌊q⌋
    have hfl1 : 1 ≤ ⌊q⌋ := Int.le_floor.mpr (by exact_mod_cast h1)
    set n : ℕ := ⌊q⌋.toNat with hn
    have hn1 : 1 ≤ n := by omega
    have hcast : (n : ℤ) = ⌊q⌋ := by omega
    obtain ⟨hlo, hhi⟩ := natLog2_spec n hn1
    constructor
    · rw [zpow_natCast]
      calc (2 : ℚ) ^ natLog2 n = ((2 ^ natLog2 n : ℕ) : ℚ) := by push_cast; ring
        _ ≤ (n : ℚ) := by exact_mod_cast hlo
        _ = ((⌊q⌋ : ℤ) : ℚ) := by rw [← hcast]; push_cast; ring
        _ ≤ q := Int.floor_le q
    · have : ((natLog2 n : ℤ) + 1) = ((natLog2 n + 1 : ℕ) : ℤ) := by push_cast; ring
      rw [this, zpow_natCast]
      calc q < ((⌊q⌋ : ℤ) : ℚ) + 1 := Int.lt_floor_add_one q
        _ = (n : ℚ) + 1 := by rw [← hcast]; push_cast; ring
        _ ≤ ((2 ^ (natLog2 n + 1) : ℕ) : ℚ) := by exact_mod_cast hhi
        _ = (2 : ℚ) ^ (natLog2 n + 1) := by push_cast; ring
  · -- 0 < q < 1: reduce to the characterization of ceilLog2 on ⌈q⁻¹⌉
    have hq1 : q < 1 := by linarith [not_le.mp h1]
    have ht1 : 1 < q⁻¹ := one_lt_inv_iff₀.mpr ⟨hq, hq1⟩
    have ht0 : 0 < q⁻¹ := by linarith
    have hc2 : 2 ≤ ⌈q⁻¹⌉ := by
      have : (1 : ℤ) < ⌈q⁻¹⌉ := Int.lt_ceil.mpr (by exact_mod_cast ht1)
      omega
    set c : ℕ := ⌈q⁻¹⌉.toNat with hc
    have hc2' : 2 ≤ c := by omega
    have hccast : (c : ℤ) = ⌈q⁻¹⌉ := by omega
    obtain ⟨hlo, hhi⟩ := ceilLog2_spec c (by omega)
    have hstrict := hhi hc2'
    set m : ℕ := ceilLog2 c with hm
    have hm1 : 1 ≤ m := by
      by_contra hm0
      have : m = 0 := by omega
      rw [this] at hlo
      omega
    have hPpos : (0 : ℚ) < (2 : ℚ) ^ (m : ℤ) := zpow_pos (by norm_num) _
    have htle : q⁻¹ ≤ (2 : ℚ) ^ (m : ℤ) := by
      rw [zpow_natCast]
      calc q⁻¹ ≤ ((⌈q⁻¹⌉ : ℤ) : ℚ) := Int.le_ceil q⁻¹
        _ = (c : ℚ) := by rw [← hccast]; push_cast; ring
        _ ≤ ((2 ^ m : ℕ) : ℚ) := by exact_mod_cast hlo
        _ = (2 : ℚ) ^ m := by push_cast; ring
    have htgt : (2 : ℚ) ^ ((m : ℤ) - 1) < q⁻¹ := by
      have hmz : (m : ℤ) - 1 = ((m - 1 : ℕ) : ℤ) := by omega
      rw [hmz, zpow_natCast]
      have hle : (2 ^ (m - 1) : ℕ) ≤ c - 1 := by omega
      calc (2 : ℚ) ^ (m - 1) = ((2 ^ (m - 1) : ℕ) : ℚ) := by push_cast; ring
        _ ≤ ((c - 1 : ℕ) : ℚ) := by exact_mod_cast hle
        _ = (c : ℚ) - 1 := by
            have : 1 ≤ c := by omega
            push_cast [this]
            ring
        _ = ((⌈q⁻¹⌉ : ℤ) : ℚ) - 1 := by rw [← hccast]; push_cast; ring
        _ < q⁻¹ := by
            have := Int.ceil_lt_add_one q⁻¹
            linarith
    constructor
    · rw [zpow_neg, inv_eq_one_div, div_le_iff₀ hPpos]
      have h2 : 1 ≤ q * (2 : ℚ) ^ (m : ℤ) := by
        have := mul_le_mul_of_nonneg_left htle (le_of_lt hq)
        rwa [mul_inv_cancel₀ (ne_of_gt hq)] at this
      linarith [h2]
    · have hBpos : (0 : ℚ) < (2 : ℚ) ^ ((m : ℤ) - 1) := zpow_pos (by norm_num) _
      have hq2 : q * (2 : ℚ) ^ ((m : ℤ) - 1) < 1 := by
        have := mul_lt_mul_of_pos_left htgt hq
        rwa [mul_inv_cancel₀ (ne_of_gt hq)] at this
      have hexp : -(m : ℤ) + 1 = -((m : ℤ) - 1) := by ring
      rw [hexp, zpow_neg, inv_eq_one_div, lt_div_iff₀ hBpos]
      exact hq2

theorem flPos_bounds (q : ℚ) (hq : 0 < q) :
    (2 : ℚ) ^ floorLog2 q ≤ flPos q ∧ flPos q ≤ (2 : ℚ) ^ (floorLog2 q + 1) ∧
      |flPos q - q| ≤ q * (2 : ℚ) ^ (-(53 : ℤ)) := by
  obtain ⟨hlo, hhi⟩ := floorLog2_spec q hq
  set e : ℤ := floorLog2 q with he
  have h2 : (2 : ℚ) ≠ 0 := by norm_num
  have hPpos : (0 : ℚ) < (2 : ℚ) ^ ((52 : ℤ) - e) := zpow_pos (by norm_num) _
  have hQpos : (0 : ℚ) < (2 : ℚ) ^ (e - (52 : ℤ)) := zpow_pos (by norm_num) _
  set x : ℚ := q * (2 : ℚ) ^ ((52 : ℤ) - e) with hx
  have hxq : x * (2 : ℚ) ^ (e - (52 : ℤ)) = q := by
    rw [hx, mul_assoc, ← zpow_add₀ h2]
    norm_num
  have hx_lo : (2 : ℚ) ^ (52 : ℤ) ≤ x := by
    calc (2 : ℚ) ^ (52 : ℤ) = (2 : ℚ) ^ e * (2 : ℚ) ^ ((52 : ℤ) - e) := by
          rw [← zpow_add₀ h2]; ring_nf
      _ ≤ q * (2 : ℚ) ^ ((52 : ℤ) - e) := mul_le_mul_of_nonneg_right hlo hPpos.le
  have hx_hi : x < (2 : ℚ) ^ (53 : ℤ) := by
    calc x < (2 : ℚ) ^ (e + 1) * (2 : ℚ) ^ ((52 : ℤ) - e) :=
          mul_lt_mul_of_pos_right hhi hPpos
      _ = (2 : ℚ) ^ (53 : ℤ) := by rw [← zpow_add₀ h2]; ring_nf
  have h52 : (2 : ℚ) ^ (52 : ℤ) = (((2 ^ 52 : ℤ)) : ℚ) := by norm_num
  have h53 : (2 : ℚ) ^ (53 : ℤ) = (((2 ^ 53 : ℤ)) : ℚ) := by norm_num
  have hfx_lo : (2 ^ 52 : ℤ) ≤ ⌊x⌋ := Int.le_floor.mpr (by rw [← h52]; exact hx_lo)
  have hfx_hi : ⌊x⌋ < (2 ^ 53 : ℤ) := Int.floor_lt.mpr (by rw [← h53]; exact hx_hi)
  have hr_lo : (2 : ℚ) ^ (52 : ℤ) ≤ (roundHalfEven x : ℚ) := by
    rw [h52]
    exact_mod_cast le_trans hfx_lo (roundHalfEven_ge_floor x)
  have hr_hi : (roundHalfEven x : ℚ) ≤ (2 : ℚ) ^ (53 : ℤ) := by
    rw [h53]
    have : roundHalfEven x ≤ 2 ^ 53 := by
      have := roundHalfEven_le_floor_add_one x
      omega
    exact_mod_cast this
  have hfl : flPos q = (roundHalfEven x : ℚ) * (2 : ℚ) ^ (e - (52 : ℤ)) := rfl
  refine ⟨?_, ?_, ?_⟩
  · rw [hfl]
    calc (2 : ℚ) ^ e = (2 : ℚ) ^ (52 : ℤ) * (2 : ℚ) ^ (e - (52 : ℤ)) := by
          rw [← zpow_add₀ h2]; ring_nf
      _ ≤ (roundHalfEven x : ℚ) * (2 : ℚ) ^ (e - (52 : ℤ)) :=
          mul_le_mul_of_nonneg_right hr_lo hQpos.le
  · rw [hfl]
    calc (roundHalfEven x : ℚ) * (2 : ℚ) ^ (e - (52 : ℤ))
        ≤ (2 : ℚ) ^ (53 : ℤ) * (2 : ℚ) ^ (e - (52 : ℤ)) :=
          mul_le_mul_of_nonneg_right hr_hi hQpos.le
      _ = (2 : ℚ) ^ (e + 1) := by rw [← zpow_add₀ h2]; ring_nf
  · rw [hfl]
    have hdiff : (roundHalfEven x : ℚ) * (2 : ℚ) ^ (e - (52 : ℤ)) - q
        = ((roundHalfEven x : ℚ) - x) * (2 : ℚ) ^ (e - (52 : ℤ)) := by
      rw [sub_mul, hxq]
    rw [hdiff, abs_mul, abs_of_pos hQpos]
    calc |(roundHalfEven x : ℚ) - x| * (2 : ℚ) ^ (e - (52 : ℤ))
        ≤ (1 / 2) * (2 : ℚ) ^ (e - (52 : ℤ)) :=
          mul_le_mul_of_nonneg_right (abs_roundHalfEven_sub x) hQpos.le
      _ = (2 : ℚ) ^ e * (2 : ℚ) ^ (-(53 : ℤ)) := by
          rw [show (1 / 2 : ℚ) = (2 : ℚ) ^ (-(1 : ℤ)) by norm_num,
            ← zpow_add₀ h2, ← zpow_add₀ h2]
          ring_nf
      _ ≤ q * (2 : ℚ) ^ (-(53 : ℤ)) :=
          mul_le_mul_of_nonneg_right hlo (zpow_pos (by norm_num : (0:ℚ) < 2) _).le

theorem fl_of_pos {q : ℚ} (h : 0 < q) : fl q = flPos q := by
  rw [fl, if_neg (ne_of_gt h), if_pos h]

theorem fl_zero : fl 0 = 0 := rfl

theorem fl_nonneg (q : ℚ) (h : 0 ≤ q) : 0 ≤ fl q := by
  rcases eq_or_lt_of_le h with h0 | hpos
  · rw [← h0, fl_zero]
  · rw [fl_of_pos hpos]
    have := (flPos_bounds q hpos).1
    have hp : (0 : ℚ) < (2 : ℚ) ^ floorLog2 q := zpow_pos (by norm_num) _
    linarith

theorem fl_err (q : ℚ) (h : 0 ≤ q) : |fl q - q| ≤ q * (2 : ℚ) ^ (-(53 : ℤ)) := by
  rcases eq_or_lt_of_le h with h0 | hpos
  · rw [← h0, fl_zero]
    norm_num
  · rw [fl_of_pos hpos]
    exact (flPos_bounds q hpos).2.2

theorem fl_mono {a b : ℚ} (ha : 0 ≤ a) (hab : a ≤ b) : fl a ≤ fl b := by
  rcases eq_or_lt_of_le ha with h0 | hapos
  · rw [← h0, fl_zero]
    exact fl_nonneg b (le_trans ha hab)
  · have hbpos : 0 < b := lt_of_lt_of_le hapos hab
    rw [fl_of_pos hapos, fl_of_pos hbpos]
    have hea := floorLog2_spec a hapos
    have heb := floorLog2_spec b hbpos
    have hee : floorLog2 a ≤ floorLog2 b := by
      by_contra hcon
      push_neg at hcon
      have h1 : floorLog2 b + 1 ≤ floorLog2 a := by omega
      have h2 : (2 : ℚ) ^ (floorLog2 b + 1) ≤ (2 : ℚ) ^ floorLog2 a :=
        zpow_le_zpow_right₀ (by norm_num) h1
      linarith [hea.1, heb.2]
    rcases eq_or_lt_of_le hee with heq | hlt
    · unfold flPos
      rw [← heq]
      have hscale : (0 : ℚ) < (2 : ℚ) ^ ((52 : ℤ) - floorLog2 a) := zpow_pos (by norm_num) _
      have hmul : a * (2 : ℚ) ^ ((52 : ℤ) - floorLog2 a)
          ≤ b * (2 : ℚ) ^ ((52 : ℤ) - floorLog2 a) :=
        mul_le_mul_of_nonneg_right hab hscale.le
      have hround : (roundHalfEven (a * (2 : ℚ) ^ ((52 : ℤ) - floorLog2 a)) : ℚ)
          ≤ (roundHalfEven (b * (2 : ℚ) ^ ((52 : ℤ) - floorLog2 a)) : ℚ) := by
        exact_mod_cast roundHalfEven_mono hmul
      exact mul_le_mul_of_nonneg_right hround (zpow_pos (by norm_num : (0:ℚ) < 2) _).le
    · have hba := flPos_bounds a hapos
      have hbb := flPos_bounds b hbpos
      calc flPos a ≤ (2 : ℚ) ^ (floorLog2 a + 1) := hba.2.1
        _ ≤ (2 : ℚ) ^ floorLog2 b := zpow_le_zpow_right₀ (by norm_num) (by omega)
        _ ≤ flPos b := hbb.1

/-! ### Evaluating `fl` at concrete rationals

`floorLog2_eq` and the three `roundHalfEven_eq_*` lemmas characterize the
pieces of `fl` uniquely, so a concrete value of `fl` can be certified by
`norm_num` side conditions. -/

theorem floorLog2_eq (q : ℚ) (e : ℤ) (hq : 0 < q)
    (h1 : (2 : ℚ) ^ e ≤ q) (h2 : q < (2 : ℚ) ^ (e + 1)) : floorLog2 q = e := by
  obtain ⟨h1', h2'⟩ := floorLog2_spec q hq
  by_contra hne
  rcases lt_or_gt_of_ne hne with hlt | hgt
  · have := zpow_le_zpow_right₀ (by norm_num : (1 : ℚ) ≤ 2)
      (by omega : floorLog2 q + 1 ≤ e)
    linarith
  · have := zpow_le_zpow_right₀ (by norm_num : (1 : ℚ) ≤ 2)
      (by omega : e + 1 ≤ floorLog2 q)
    linarith

theorem roundHalfEven_eq_of_lt_half (q : ℚ) (f : ℤ)
    (h1 : (f : ℚ) ≤ q) (h2 : q - f < 1 / 2) : roundHalfEven q = f := by
  have hf : ⌊q⌋ = f := Int.floor_eq_iff.mpr ⟨h1, by linarith⟩
  unfold roundHalfEven
  rw [hf, if_pos h2]

theorem roundHalfEven_eq_of_gt_half (q : ℚ) (f : ℤ)
    (h1 : (f : ℚ) ≤ q) (h2 : 1 / 2 < q - f) (h3 : q < f + 1) :
    roundHalfEven q = f + 1 := by
  have hf : ⌊q⌋ = f := Int.floor_eq_iff.mpr ⟨h1, by linarith⟩
  unfold roundHalfEven
  rw [hf, if_neg (by linarith), if_pos h2]

theorem roundHalfEven_eq_of_tie_even (q : ℚ) (f : ℤ)
    (h2 : q - f = 1 / 2) (h3 : 2 ∣ f) : roundHalfEven q = f := by
  have hf : ⌊q⌋ = f := Int.floor_eq_iff.mpr ⟨by linarith, by linarith⟩
  unfold roundHalfEven
  rw [hf, if_neg (by linarith), if_neg (by linarith), if_pos h3]

theorem fl_eq_of (q : ℚ) (e m : ℤ) (hq : 0 < q)
    (h1 : (2 : ℚ) ^ e ≤ q) (h2 : q < (2 : ℚ) ^ (e + 1))
    (hm : roundHalfEven (q * (2 : ℚ) ^ ((52 : ℤ) - e)) = m) :
    fl q = (m : ℚ) * (2 : ℚ) ^ (e - (52 : ℤ)) := by
  rw [fl_of_pos hq]
  unfold flPos
  rw [floorLog2_eq q e hq h1 h2, hm]

theorem fl_one : fl 1 = 1 := by
  have h := fl_eq_of 1 0 (2 ^ 52) (by norm_num) (by norm_num) (by norm_num)
    (roundHalfEven_eq_of_lt_half _ _ (by norm_num) (by norm_num))
  rw [h]
  norm_num

/-- The binary64 value of the Python literal `0.7` (`train_ratio`). -/
theorem fl_seven_tenths : fl (7 / 10) = 6305039478318694 / 2 ^ 53 := by
  have h := fl_eq_of (7 / 10) (-1) 6305039478318694 (by norm_num) (by norm_num)
    (by norm_num)
    (roundHalfEven_eq_of_lt_half _ _ (by norm_num) (by norm_num))
  rw [h]
  norm_num

/-- The binary64 value of the Python literal `0.2` (`val_ratio`). -/
theorem fl_two_tenths : fl (2 / 10) = 7205759403792794 / 2 ^ 55 := by
  have h := fl_eq_of (2 / 10) (-3) 7205759403792794 (by norm_num) (by norm_num)
    (by norm_num)
    (roundHalfEven_eq_of_gt_half _ 7205759403792793 (by norm_num) (by norm_num)
      (by norm_num))
  rw [h]
  norm_num

/-- The binary64 value of the Python literal `0.9` (used by
`step3_split_dataset` as `0.7 + 0.2` written out). -/
theorem fl_nine_tenths : fl (9 / 10) = 8106479329266893 / 2 ^ 53 := by
  have h := fl_eq_of (9 / 10) (-1) 8106479329266893 (by norm_num) (by norm_num)
    (by norm_num)
    (roundHalfEven_eq_of_gt_half _ 8106479329266892 (by norm_num) (by norm_num)
      (by norm_num))
  rw [h]
  norm_num

/-- The Python float sum `0.7 + 0.2`: one ulp BELOW `0.9`.  The exact sum
of the two binary64 values ends in `....5`, and the round-half-to-even tie
break rounds it down. -/
theorem fl_sum_ratios :
    fl (fl (7 / 10) + fl (2 / 10)) = 8106479329266892 / 2 ^ 53 := by
  rw [fl_seven_tenths, fl_two_tenths]
  have harg : (6305039478318694 / 2 ^ 53 : ℚ) + 7205759403792794 / 2 ^ 55
      = 32425917317067570 / 2 ^ 55 := by norm_num
  rw [harg]
  have h := fl_eq_of (32425917317067570 / 2 ^ 55) (-1) 8106479329266892
    (by norm_num) (by norm_num) (by norm_num)
    (roundHalfEven_eq_of_tie_even _ 8106479329266892 (by norm_num) (by norm_num))
  rw [h]
  norm_num

/-! ## Concrete split-index computations -/

theorem train_ratio_val : train_ratio = 6305039478318694 / 2 ^ 53 :=
  fl_seven_tenths

theorem val_ratio_val : val_ratio = 7205759403792794 / 2 ^ 55 :=
  fl_two_tenths

theorem fl_hundred : fl (100 : ℚ) = 100 := by
  have h := fl_eq_of 100 6 7036874417766400 (by norm_num) (by norm_num)
    (by norm_num)
    (roundHalfEven_eq_of_lt_half _ _ (by norm_num) (by norm_num))
  rw [h]
  norm_num

/-- `int(100 * 0.7) = 70`: the product of `100.0` and the binary64 `0.7`
rounds up to exactly `70.0`. -/
theorem train_end_100 : train_end 100 = 70 := by
  unfold train_end
  rw [show (((100 : ℕ) : ℚ)) = (100 : ℚ) by norm_num, fl_hundred, train_ratio_val]
  rw [show (100 : ℚ) * (6305039478318694 / 2 ^ 53)
      = 630503947831869400 / 2 ^ 53 by norm_num]
  have h := fl_eq_of (630503947831869400 / 2 ^ 53) 6 4925812092436480
    (by norm_num) (by norm_num) (by norm_num)
    (roundHalfEven_eq_of_gt_half _ 4925812092436479 (by norm_num) (by norm_num)
      (by norm_num))
  rw [h, show ((4925812092436480 : ℤ) : ℚ) * 2 ^ ((6 : ℤ) - 52) = 70 by norm_num]
  rw [show ⌊(70 : ℚ)⌋ = 70 by norm_num]
  rfl

/-- `int(100 * (0.7 + 0.2)) = 89`: the float sum `0.7 + 0.2` is one ulp
below `0.9`, and multiplying by `100.0` rounds to a value just below `90`,
which `int()` truncates to `89`. -/
theorem val_end_100 : val_end 100 = 89 := by
  unfold val_end train_ratio val_ratio
  rw [show (((100 : ℕ) : ℚ)) = (100 : ℚ) by norm_num, fl_hundred, fl_sum_ratios]
  rw [show (100 : ℚ) * (8106479329266892 / 2 ^ 53)
      = 810647932926689200 / 2 ^ 53 by norm_num]
  have h := fl_eq_of (810647932926689200 / 2 ^ 53) 6 6333186975989759
    (by norm_num) (by norm_num) (by norm_num)
    (roundHalfEven_eq_of_lt_half _ _ (by norm_num) (by norm_num))
  rw [h, show ((6333186975989759 : ℤ) : ℚ) * 2 ^ ((6 : ℤ) - 52)
      = 6333186975989759 / 2 ^ 46 by norm_num]
  rw [show ⌊(6333186975989759 : ℚ) / 2 ^ 46⌋ = 89 by
    rw [Int.floor_eq_iff]
    norm_num]
  rfl

theorem train_end_le_val_end (n : ℕ) : train_end n ≤ val_end n := by
  unfold train_end val_end
  have hn0 : (0 : ℚ) ≤ fl (n : ℚ) := fl_nonneg _ (by positivity)
  have htr0 : (0 : ℚ) ≤ train_ratio := by rw [train_ratio_val]; norm_num
  have hr : train_ratio ≤ fl (train_ratio + val_ratio) := by
    unfold train_ratio val_ratio
    rw [fl_sum_ratios, fl_seven_tenths]
    norm_num
  have hmul : fl (n : ℚ) * train_ratio ≤ fl (n : ℚ) * fl (train_ratio + val_ratio) :=
    mul_le_mul_of_nonneg_left hr hn0
  exact Int.toNat_le_toNat (Int.floor_le_floor (fl_mono (mul_nonneg hn0 htr0) hmul))

theorem step3_train_end_le_val_end (n : ℕ) :
    step3_train_end n ≤ step3_val_end n := by
  unfold step3_train_end step3_val_end
  have hn0 : (0 : ℚ) ≤ fl (n : ℚ) := fl_nonneg _ (by positivity)
  have htr0 : (0 : ℚ) ≤ fl (7 / 10) := by rw [fl_seven_tenths]; norm_num
  have hr : fl (7 / 10) ≤ fl (9 / 10) := by
    rw [fl_seven_tenths, fl_nine_tenths]
    norm_num
  have hmul : fl (n : ℚ) * fl (7 / 10) ≤ fl (n : ℚ) * fl (9 / 10) :=
    mul_le_mul_of_nonneg_left hr hn0
  exact Int.toNat_le_toNat (Int.floor_le_floor (fl_mono (mul_nonneg hn0 htr0) hmul))

/-! ## Slicing lemmas for the splitter -/

theorem take_slice_drop_concat {α : Type} (l : List α) (a b : ℕ) (hab : a ≤ b) :
    l.take a ++ ((l.drop a).take (b - a) ++ l.drop b) = l := by
  have h1 : (l.drop a).drop (b - a) = l.drop b := by
    rw [List.drop_drop]
    congr 1
    omega
  calc l.take a ++ ((l.drop a).take (b - a) ++ l.drop b)
      = l.take a ++ ((l.drop a).take (b - a) ++ (l.drop a).drop (b - a)) := by
        rw [h1]
    _ = l.take a ++ l.drop a := by rw [List.take_append_drop]
    _ = l := List.take_append_drop a l

theorem slices_partition {α : Type} (orig l : List α) (hperm : l.Perm orig)
    (a b : ℕ) (hab : a ≤ b) :
    isPartitionOf (l.take a) ((l.drop a).take (b - a)) (l.drop b) orig := by
  have heq := take_slice_drop_concat l a b hab
  constructor
  · rw [heq]; exact hperm
  · intro hnd
    have hlnd : (l.take a ++ ((l.drop a).take (b - a) ++ l.drop b)).Nodup := by
      rw [heq]; exact hperm.nodup_iff.mpr hnd
    rw [List.nodup_append] at hlnd
    obtain ⟨h1, h23, hd1⟩ := hlnd
    rw [List.nodup_append] at h23
    rw [List.disjoint_append_right] at hd1
    exact ⟨hd1.1, hd1.2, h23.2.2⟩

/-! ## Claim C1 -/

/-- C1, as stated, is false on the code: with `n = 100` pairs and the
default ratios `0.7/0.2/0.1`, `split_unified_dataset` produces split sizes
`(70, 19, 11)`, not `(70, 20, 10)` — here exhibited on the concrete input
`List.range 100`.  The cause: the binary64 sum `0.7 + 0.2` is one ulp
below `0.9`, so `val_end = int(100 * (0.7 + 0.2)) = 89`, not `90`. -/
theorem C1_split_sizes_counterexample :
    ¬ ((split_unified_dataset_splits (List.range 100)).1.length = 70 ∧
      (split_unified_dataset_splits (List.range 100)).2.1.length = 20 ∧
      (split_unified_dataset_splits (List.range 100)).2.2.length = 10) := by
  have hval : (split_unified_dataset_splits (List.range 100)).2.1.length = 19 := by
    unfold split_unified_dataset_splits
    simp [List.length_range, train_end_100, val_end_100]
  intro h
  obtain ⟨-, h2, -⟩ := h
  omega

/-- C1 (amended): for the dataset splitter run on exactly `n = 100` valid
image-label pairs with ratios `train=0.7`, `val=0.2`, `test=0.1`, the three
resulting split sizes are exactly `70`, `19` and `11` respectively, for
every shuffle order (`train_end = 70` but `val_end = int(100*(0.7+0.2)) = 89`
in binary64 arithmetic). -/
theorem C1_split_sizes_amended {α : Type} (l : List α) (h : l.length = 100) :
    (split_unified_dataset_splits l).1.length = 70 ∧
    (split_unified_dataset_splits l).2.1.length = 19 ∧
    (split_unified_dataset_splits l).2.2.length = 11 := by
  unfold split_unified_dataset_splits
  simp [h, train_end_100, val_end_100]

theorem C1_split_sizes_amended_witness :
    (List.range 100).length = 100 ∧
    ((split_unified_dataset_splits (List.range 100)).1.length = 70 ∧
      (split_unified_dataset_splits (List.range 100)).2.1.length = 19 ∧
      (split_unified_dataset_splits (List.range 100)).2.2.length = 11) :=
  ⟨by simp, C1_split_sizes_amended (List.range 100) (by simp)⟩

/-! ## Claim C2 -/

/-- C2: for every non-empty list of valid image-label pairs and every
shuffle order (any permutation `shuffled` of the pairs `orig`), the three
subsets produced by the splitter are pairwise disjoint (given distinct
pairs) and their concatenation is a permutation of the full set of valid
pairs: nothing is dropped or duplicated.  This holds both for
`split_unified_dataset` (prepare_data.py) and for `step3_split_dataset`
(fix_and_setup_dataset.py). -/
theorem C2_split_partition {α : Type} (orig shuffled : List α)
    (hperm : shuffled.Perm orig) (_hne : orig ≠ []) :
    isPartitionOf (split_unified_dataset_splits shuffled).1
        (split_unified_dataset_splits shuffled).2.1
        (split_unified_dataset_splits shuffled).2.2 orig ∧
      isPartitionOf (step3_split_dataset_splits shuffled).1
        (step3_split_dataset_splits shuffled).2.1
        (step3_split_dataset_splits shuffled).2.2 orig :=
  ⟨slices_partition orig shuffled hperm _ _ (train_end_le_val_end _),
    slices_partition orig shuffled hperm _ _ (step3_train_end_le_val_end _)⟩

theorem C2_split_partition_witness :
    ([0, 1, 2] : List ℕ).Perm [0, 1, 2] ∧ ([0, 1, 2] : List ℕ) ≠ [] ∧
    (isPartitionOf (split_unified_dataset_splits [0, 1, 2]).1
        (split_unified_dataset_splits [0, 1, 2]).2.1
        (split_unified_dataset_splits [0, 1, 2]).2.2 [0, 1, 2] ∧
      isPartitionOf (step3_split_dataset_splits [0, 1, 2]).1
        (step3_split_dataset_splits [0, 1, 2]).2.1
        (step3_split_dataset_splits [0, 1, 2]).2.2 [0, 1, 2]) :=
  ⟨List.Perm.refl _, by decide,
    C2_split_partition [0, 1, 2] [0, 1, 2] (List.Perm.refl _) (by decide)⟩

/-! ## Claim C3: normalized values lie in [0, 1] -/

theorem fl_le_one {q : ℚ} (h0 : 0 ≤ q) (h1 : q ≤ 1) : fl q ≤ 1 := by
  calc fl q ≤ fl 1 := fl_mono h0 h1
    _ = 1 := fl_one

theorem fl_ge_one {q : ℚ} (h1 : 1 ≤ q) : 1 ≤ fl q := by
  calc (1 : ℚ) = fl 1 := fl_one.symm
    _ ≤ fl q := fl_mono (by norm_num) h1

theorem centerNorm_mem (d a b : ℤ) (ha : 0 ≤ a) (hab : a < b) (hbd : b ≤ d) :
    0 ≤ centerNorm d a b ∧ centerNorm d a b ≤ 1 := by
  have hd1 : 1 ≤ d := by omega
  have hdq : (1 : ℚ) ≤ (d : ℚ) := by exact_mod_cast hd1
  have ha0 : (0 : ℚ) ≤ (a : ℚ) := by exact_mod_cast ha
  have hb0 : (0 : ℚ) ≤ (b : ℚ) := by exact_mod_cast (by omega : (0 : ℤ) ≤ b)
  have hs0 : (0 : ℚ) ≤ ((a : ℚ) + b) / 2 := by linarith
  have hsd : ((a : ℚ) + b) / 2 ≤ (d : ℚ) := by
    have h1 : (a : ℚ) ≤ (d : ℚ) - 1 := by exact_mod_cast (by omega : a ≤ d - 1)
    have h2 : (b : ℚ) ≤ (d : ℚ) := by exact_mod_cast hbd
    linarith
  have hA0 : 0 ≤ fl (((a : ℚ) + b) / 2) := fl_nonneg _ hs0
  have hW1 : (1 : ℚ) ≤ fl (d : ℚ) := fl_ge_one hdq
  have hAW : fl (((a : ℚ) + b) / 2) ≤ fl (d : ℚ) := fl_mono hs0 hsd
  have hq0 : 0 ≤ fl (((a : ℚ) + b) / 2) / fl (d : ℚ) :=
    div_nonneg hA0 (by linarith)
  constructor
  · exact fl_nonneg _ hq0
  · exact fl_le_one hq0 ((div_le_one (by linarith)).mpr hAW)

theorem sizeNorm_mem (d a b : ℤ) (ha : 0 ≤ a) (hab : a < b) (hbd : b ≤ d) :
    0 ≤ sizeNorm d a b ∧ sizeNorm d a b ≤ 1 := by
  have hd0 : (0 : ℚ) < (d : ℚ) := by exact_mod_cast (by omega : (0 : ℤ) < d)
  have hba : (0 : ℚ) ≤ (b : ℚ) - a := by
    have : (a : ℚ) ≤ (b : ℚ) := by exact_mod_cast le_of_lt hab
    linarith
  have hbd' : (b : ℚ) - a ≤ (d : ℚ) := by
    have h1 : (b : ℚ) ≤ (d : ℚ) := by exact_mod_cast hbd
    have ha0 : (0 : ℚ) ≤ (a : ℚ) := by exact_mod_cast ha
    linarith
  have hq0 : (0 : ℚ) ≤ ((b : ℚ) - a) / (d : ℚ) := div_nonneg hba hd0.le
  have hq1 : ((b : ℚ) - a) / (d : ℚ) ≤ 1 := (div_le_one hd0).mpr hbd'
  exact ⟨fl_nonneg _ hq0, fl_le_one hq0 hq1⟩

/-- C3: for every annotation line with integer fields satisfying
`0 ≤ x1 < x2 ≤ w` and `0 ≤ y1 < y2 ≤ h`, the converter's computed
normalized float values `center_x`, `center_y`, `bbox_width`,
`bbox_height` (convert_deeppcb.py lines 116-119, modelled with exactly
rounded binary64 arithmetic) all lie in the interval `[0, 1]`. -/
theorem C3_normalized_values_in_unit_interval (w h x1 y1 x2 y2 : ℤ)
    (hx1 : 0 ≤ x1) (hx12 : x1 < x2) (hx2 : x2 ≤ w)
    (hy1 : 0 ≤ y1) (hy12 : y1 < y2) (hy2 : y2 ≤ h) :
    (0 ≤ centerNorm w x1 x2 ∧ centerNorm w x1 x2 ≤ 1) ∧
    (0 ≤ centerNorm h y1 y2 ∧ centerNorm h y1 y2 ≤ 1) ∧
    (0 ≤ sizeNorm w x1 x2 ∧ sizeNorm w x1 x2 ≤ 1) ∧
    (0 ≤ sizeNorm h y1 y2 ∧ sizeNorm h y1 y2 ≤ 1) :=
  ⟨centerNorm_mem w x1 x2 hx1 hx12 hx2, centerNorm_mem h y1 y2 hy1 hy12 hy2,
    sizeNorm_mem w x1 x2 hx1 hx12 hx2, sizeNorm_mem h y1 y2 hy1 hy12 hy2⟩

theorem C3_normalized_values_in_unit_interval_witness :
    ((0 : ℤ) ≤ 0 ∧ (0 : ℤ) < 2 ∧ (2 : ℤ) ≤ 2 ∧
      (0 : ℤ) ≤ 0 ∧ (0 : ℤ) < 1 ∧ (1 : ℤ) ≤ 1) ∧
    ((0 ≤ centerNorm 2 0 2 ∧ centerNorm 2 0 2 ≤ 1) ∧
      (0 ≤ centerNorm 1 0 1 ∧ centerNorm 1 0 1 ≤ 1) ∧
      (0 ≤ sizeNorm 2 0 2 ∧ sizeNorm 2 0 2 ≤ 1) ∧
      (0 ≤ sizeNorm 1 0 1 ∧ sizeNorm 1 0 1 ≤ 1)) :=
  ⟨by omega,
    C3_normalized_values_in_unit_interval 2 1 0 0 2 1 (by omega) (by omega)
      (by omega) (by omega) (by omega) (by omega)⟩

/-! ## Claim C4: the round-trip law -/

theorem round6_err (v : ℚ) : |round6 v - v| ≤ 1 / 2000000 := by
  unfold round6
  rw [show (roundHalfEven (v * 1000000) : ℚ) / 1000000 - v
      = ((roundHalfEven (v * 1000000) : ℚ) - v * 1000000) / 1000000 by ring]
  rw [abs_div, abs_of_pos (by norm_num : (0 : ℚ) < (1000000 : ℚ))]
  have h := abs_roundHalfEven_sub (v * 1000000)
  calc |(roundHalfEven (v * 1000000) : ℚ) - v * 1000000| / 1000000
      ≤ (1 / 2) / 1000000 := by gcongr
    _ = 1 / 2000000 := by norm_num

/-- Absolute rounding error of one float operation whose exact result lies
in `[0, 1]`. -/
theorem fl_err_unit {q : ℚ} (h0 : 0 ≤ q) (h1 : q ≤ 1) :
    |fl q - q| ≤ 1 / 2 ^ 53 := by
  have h := fl_err q h0
  have hu : (2 : ℚ) ^ (-(53 : ℤ)) = 1 / 2 ^ 53 := by norm_num
  rw [hu] at h
  have h2 : q * (1 / 2 ^ 53) ≤ 1 * (1 / 2 ^ 53) :=
    mul_le_mul_of_nonneg_right h1 (by norm_num)
  linarith

theorem centerNorm_close (d a b : ℤ) (ha : 0 ≤ a) (hab : a < b) (hbd : b ≤ d) :
    |centerNorm d a b - centerNormExact d a b| ≤ 1 / 2 ^ 50 := by
  have hd1 : 1 ≤ d := by omega
  have hwq : (1 : ℚ) ≤ (d : ℚ) := by exact_mod_cast hd1
  have hw0 : (0 : ℚ) < (d : ℚ) := by linarith
  have ha0 : (0 : ℚ) ≤ (a : ℚ) := by exact_mod_cast ha
  have hb0 : (0 : ℚ) ≤ (b : ℚ) := by exact_mod_cast (by omega : (0 : ℤ) ≤ b)
  have hs0 : (0 : ℚ) ≤ ((a : ℚ) + b) / 2 := by linarith
  have hsw : ((a : ℚ) + b) / 2 ≤ (d : ℚ) := by
    have h1 : (a : ℚ) ≤ (d : ℚ) - 1 := by exact_mod_cast (by omega : a ≤ d - 1)
    have h2 : (b : ℚ) ≤ (d : ℚ) := by exact_mod_cast hbd
    linarith
  have hu : (2 : ℚ) ^ (-(53 : ℤ)) = 1 / 2 ^ 53 := by norm_num
  have hA := fl_err (((a : ℚ) + b) / 2) hs0
  rw [hu] at hA
  have hA' : |fl (((a : ℚ) + b) / 2) - ((a : ℚ) + b) / 2|
      ≤ (d : ℚ) * (1 / 2 ^ 53) := by
    calc |fl (((a : ℚ) + b) / 2) - ((a : ℚ) + b) / 2|
        ≤ (((a : ℚ) + b) / 2) * (1 / 2 ^ 53) := hA
      _ ≤ (d : ℚ) * (1 / 2 ^ 53) := mul_le_mul_of_nonneg_right hsw (by norm_num)
  have hW := fl_err (d : ℚ) (by linarith)
  rw [hu] at hW
  have hW1 : (1 : ℚ) ≤ fl (d : ℚ) := fl_ge_one hwq
  have hWlo : (d : ℚ) / 2 ≤ fl (d : ℚ) := by
    have habs := (abs_le.mp hW).1
    have hpos : (0 : ℚ) ≤ (d : ℚ) * (1 / 2 - 1 / 2 ^ 53) :=
      mul_nonneg hw0.le (by norm_num)
    nlinarith
  have hW0 : (0 : ℚ) < fl (d : ℚ) := by linarith
  have hA0 : 0 ≤ fl (((a : ℚ) + b) / 2) := fl_nonneg _ hs0
  have hAW : fl (((a : ℚ) + b) / 2) ≤ fl (d : ℚ) := fl_mono hs0 hsw
  have hq1 : fl (((a : ℚ) + b) / 2) / fl (d : ℚ) ≤ 1 := (div_le_one hW0).mpr hAW
  have hq0 : 0 ≤ fl (((a : ℚ) + b) / 2) / fl (d : ℚ) := div_nonneg hA0 hW0.le
  have hdiff : fl (((a : ℚ) + b) / 2) / fl (d : ℚ) - (((a : ℚ) + b) / 2) / (d : ℚ)
      = (fl (((a : ℚ) + b) / 2) * (d : ℚ)
          - fl (d : ℚ) * (((a : ℚ) + b) / 2)) / (fl (d : ℚ) * (d : ℚ)) :=
    div_sub_div _ _ (ne_of_gt hW0) (ne_of_gt hw0)
  have hnum : |fl (((a : ℚ) + b) / 2) * (d : ℚ) - fl (d : ℚ) * (((a : ℚ) + b) / 2)|
      ≤ 2 * (d : ℚ) ^ 2 * (1 / 2 ^ 53) := by
    have hrw : fl (((a : ℚ) + b) / 2) * (d : ℚ) - fl (d : ℚ) * (((a : ℚ) + b) / 2)
        = (fl (((a : ℚ) + b) / 2) - ((a : ℚ) + b) / 2) * (d : ℚ)
          + (((a : ℚ) + b) / 2) * ((d : ℚ) - fl (d : ℚ)) := by ring
    rw [hrw]
    have g1 : |(fl (((a : ℚ) + b) / 2) - ((a : ℚ) + b) / 2) * (d : ℚ)|
        ≤ ((d : ℚ) * (1 / 2 ^ 53)) * (d : ℚ) := by
      rw [abs_mul, abs_of_pos hw0]
      exact mul_le_mul_of_nonneg_right hA' hw0.le
    have g2 : |(((a : ℚ) + b) / 2) * ((d : ℚ) - fl (d : ℚ))|
        ≤ (d : ℚ) * ((d : ℚ) * (1 / 2 ^ 53)) := by
      rw [abs_mul, abs_of_nonneg hs0]
      have hWabs : |(d : ℚ) - fl (d : ℚ)| ≤ (d : ℚ) * (1 / 2 ^ 53) := by
        rw [abs_sub_comm]; exact hW
      calc (((a : ℚ) + b) / 2) * |(d : ℚ) - fl (d : ℚ)|
          ≤ (d : ℚ) * |(d : ℚ) - fl (d : ℚ)| :=
            mul_le_mul_of_nonneg_right hsw (abs_nonneg _)
        _ ≤ (d : ℚ) * ((d : ℚ) * (1 / 2 ^ 53)) :=
            mul_le_mul_of_nonneg_left hWabs hw0.le
    calc |(fl (((a : ℚ) + b) / 2) - ((a : ℚ) + b) / 2) * (d : ℚ)
          + (((a : ℚ) + b) / 2) * ((d : ℚ) - fl (d : ℚ))|
        ≤ |(fl (((a : ℚ) + b) / 2) - ((a : ℚ) + b) / 2) * (d : ℚ)|
          + |(((a : ℚ) + b) / 2) * ((d : ℚ) - fl (d : ℚ))| := abs_add _ _
      _ ≤ ((d : ℚ) * (1 / 2 ^ 53)) * (d : ℚ) + (d : ℚ) * ((d : ℚ) * (1 / 2 ^ 53)) := by
          linarith
      _ = 2 * (d : ℚ) ^ 2 * (1 / 2 ^ 53) := by ring
  have hden : (d : ℚ) ^ 2 / 2 ≤ fl (d : ℚ) * (d : ℚ) := by nlinarith
  have hden0 : (0 : ℚ) < (d : ℚ) ^ 2 / 2 := by positivity
  have hkey : |fl (((a : ℚ) + b) / 2) / fl (d : ℚ) - (((a : ℚ) + b) / 2) / (d : ℚ)|
      ≤ 4 / 2 ^ 53 := by
    rw [hdiff, abs_div, abs_of_pos (by positivity : (0 : ℚ) < fl (d : ℚ) * (d : ℚ))]
    calc |fl (((a : ℚ) + b) / 2) * (d : ℚ) - fl (d : ℚ) * (((a : ℚ) + b) / 2)|
          / (fl (d : ℚ) * (d : ℚ))
        ≤ (2 * (d : ℚ) ^ 2 * (1 / 2 ^ 53)) / ((d : ℚ) ^ 2 / 2) :=
          div_le_div₀ (by positivity) hnum hden0 hden
      _ = 4 / 2 ^ 53 := by
          field_simp
          ring
  have hlast := fl_err (fl (((a : ℚ) + b) / 2) / fl (d : ℚ)) hq0
  rw [hu] at hlast
  have hlast' : |fl (fl (((a : ℚ) + b) / 2) / fl (d : ℚ))
      - fl (((a : ℚ) + b) / 2) / fl (d : ℚ)| ≤ 1 / 2 ^ 53 := by
    calc |fl (fl (((a : ℚ) + b) / 2) / fl (d : ℚ))
          - fl (((a : ℚ) + b) / 2) / fl (d : ℚ)|
        ≤ (fl (((a : ℚ) + b) / 2) / fl (d : ℚ)) * (1 / 2 ^ 53) := hlast
      _ ≤ 1 * (1 / 2 ^ 53) := mul_le_mul_of_nonneg_right hq1 (by norm_num)
      _ = 1 / 2 ^ 53 := by ring
  have hcn : centerNorm d a b = fl (fl (((a : ℚ) + b) / 2) / fl (d : ℚ)) := rfl
  have hce : centerNormExact d a b = (((a : ℚ) + b) / 2) / (d : ℚ) := rfl
  rw [hcn, hce]
  calc |fl (fl (((a : ℚ) + b) / 2) / fl (d : ℚ)) - (((a : ℚ) + b) / 2) / (d : ℚ)|
      ≤ |fl (fl (((a : ℚ) + b) / 2) / fl (d : ℚ))
          - fl (((a : ℚ) + b) / 2) / fl (d : ℚ)|
        + |fl (((a : ℚ) + b) / 2) / fl (d : ℚ) - (((a : ℚ) + b) / 2) / (d : ℚ)| :=
        abs_sub_le _ _ _
    _ ≤ 1 / 2 ^ 53 + 4 / 2 ^ 53 := by linarith
    _ ≤ 1 / 2 ^ 50 := by norm_num

theorem sizeNorm_close (d a b : ℤ) (ha : 0 ≤ a) (hab : a < b) (hbd : b ≤ d) :
    |sizeNorm d a b - sizeNormExact d a b| ≤ 1 / 2 ^ 53 := by
  have hd0 : (0 : ℚ) < (d : ℚ) := by exact_mod_cast (by omega : (0 : ℤ) < d)
  have hba : (0 : ℚ) ≤ (b : ℚ) - a := by
    have : (a : ℚ) ≤ (b : ℚ) := by exact_mod_cast le_of_lt hab
    linarith
  have hbd' : (b : ℚ) - a ≤ (d : ℚ) := by
    have h1 : (b : ℚ) ≤ (d : ℚ) := by exact_mod_cast hbd
    have ha0 : (0 : ℚ) ≤ (a : ℚ) := by exact_mod_cast ha
    linarith
  have hq0 : (0 : ℚ) ≤ ((b : ℚ) - a) / (d : ℚ) := div_nonneg hba hd0.le
  have hq1 : ((b : ℚ) - a) / (d : ℚ) ≤ 1 := (div_le_one hd0).mpr hbd'
  exact fl_err_unit hq0 hq1

theorem roundtrip_exact (d a b : ℤ) (hd : 1 ≤ d) :
    (centerNormExact d a b - sizeNormExact d a b / 2) * (d : ℚ) = (a : ℚ) ∧
    (centerNormExact d a b + sizeNormExact d a b / 2) * (d : ℚ) = (b : ℚ) := by
  have hdne : (d : ℚ) ≠ 0 := by
    have : (0 : ℚ) < (d : ℚ) := by exact_mod_cast (by omega : (0 : ℤ) < d)
    exact ne_of_gt this
  unfold centerNormExact sizeNormExact
  constructor
  · field_simp
    ring
  · field_simp
    ring

theorem roundtrip_axis (d a b : ℤ) (ha : 0 ≤ a) (hab : a < b) (hbd : b ≤ d) :
    |(round6 (centerNorm d a b) - round6 (sizeNorm d a b) / 2) * (d : ℚ) - (a : ℚ)|
        ≤ (d : ℚ) / 100000 ∧
      |(round6 (centerNorm d a b) + round6 (sizeNorm d a b) / 2) * (d : ℚ) - (b : ℚ)|
        ≤ (d : ℚ) / 100000 := by
  obtain ⟨he1, he2⟩ := roundtrip_exact d a b (by omega)
  have hd0 : (0 : ℚ) ≤ (d : ℚ) := by exact_mod_cast (by omega : (0 : ℤ) ≤ d)
  have hc6 : |round6 (centerNorm d a b) - centerNormExact d a b|
      ≤ 1 / 2000000 + 1 / 2 ^ 50 := by
    calc |round6 (centerNorm d a b) - centerNormExact d a b|
        ≤ |round6 (centerNorm d a b) - centerNorm d a b|
          + |centerNorm d a b - centerNormExact d a b| := abs_sub_le _ _ _
      _ ≤ 1 / 2000000 + 1 / 2 ^ 50 :=
          add_le_add (round6_err _) (centerNorm_close d a b ha hab hbd)
  have hs6 : |round6 (sizeNorm d a b) - sizeNormExact d a b|
      ≤ 1 / 2000000 + 1 / 2 ^ 53 := by
    calc |round6 (sizeNorm d a b) - sizeNormExact d a b|
        ≤ |round6 (sizeNorm d a b) - sizeNorm d a b|
          + |sizeNorm d a b - sizeNormExact d a b| := abs_sub_le _ _ _
      _ ≤ 1 / 2000000 + 1 / 2 ^ 53 :=
          add_le_add (round6_err _) (sizeNorm_close d a b ha hab hbd)
  obtain ⟨hc6l, hc6r⟩ := abs_le.mp hc6
  obtain ⟨hs6l, hs6r⟩ := abs_le.mp hs6
  have hinner1 : |(round6 (centerNorm d a b) - centerNormExact d a b)
      - (round6 (sizeNorm d a b) - sizeNormExact d a b) / 2| ≤ 1 / 100000 := by
    rw [abs_le]
    constructor
    · linarith
    · linarith
  have hinner2 : |(round6 (centerNorm d a b) - centerNormExact d a b)
      + (round6 (sizeNorm d a b) - sizeNormExact d a b) / 2| ≤ 1 / 100000 := by
    rw [abs_le]
    constructor
    · linarith
    · linarith
  constructor
  · have hkey : (round6 (centerNorm d a b) - round6 (sizeNorm d a b) / 2) * (d : ℚ)
        - (a : ℚ)
        = ((round6 (centerNorm d a b) - centerNormExact d a b)
            - (round6 (sizeNorm d a b) - sizeNormExact d a b) / 2) * (d : ℚ) := by
      rw [← he1]; ring
    rw [hkey, abs_mul, abs_of_nonneg hd0]
    calc |(round6 (centerNorm d a b) - centerNormExact d a b)
          - (round6 (sizeNorm d a b) - sizeNormExact d a b) / 2| * (d : ℚ)
        ≤ (1 / 100000) * (d : ℚ) := mul_le_mul_of_nonneg_right hinner1 hd0
      _ = (d : ℚ) / 100000 := by ring
  · have hkey : (round6 (centerNorm d a b) + round6 (sizeNorm d a b) / 2) * (d : ℚ)
        - (b : ℚ)
        = ((round6 (centerNorm d a b) - centerNormExact d a b)
            + (round6 (sizeNorm d a b) - sizeNormExact d a b) / 2) * (d : ℚ) := by
      rw [← he2]; ring
    rw [hkey, abs_mul, abs_of_nonneg hd0]
    calc |(round6 (centerNorm d a b) - centerNormExact d a b)
          + (round6 (sizeNorm d a b) - sizeNormExact d a b) / 2| * (d : ℚ)
        ≤ (1 / 100000) * (d : ℚ) := mul_le_mul_of_nonneg_right hinner2 hd0
      _ = (d : ℚ) / 100000 := by ring

/-- C4: for every annotation line with valid box coordinates
(`0 ≤ x1 < x2 ≤ w`, `0 ≤ y1 < y2 ≤ h`), applying the denormalization
`x1' = (cx - bw/2)*w`, `x2' = (cx + bw/2)*w`, `y1' = (cy - bh/2)*h`,
`y2' = (cy + bh/2)*h` to the converter's normalized record reproduces the
original box: exactly when the record is read in exact arithmetic
(`centerNormExact`/`sizeNormExact`), and to within `dimension/100000`
(covering the float rounding and the 6-decimal formatting) for the
persisted 6-decimal form of the float-computed record. -/
theorem C4_roundtrip_law (w h x1 y1 x2 y2 : ℤ)
    (hx1 : 0 ≤ x1) (hx12 : x1 < x2) (hx2 : x2 ≤ w)
    (hy1 : 0 ≤ y1) (hy12 : y1 < y2) (hy2 : y2 ≤ h) :
    ((centerNormExact w x1 x2 - sizeNormExact w x1 x2 / 2) * (w : ℚ) = (x1 : ℚ) ∧
     (centerNormExact w x1 x2 + sizeNormExact w x1 x2 / 2) * (w : ℚ) = (x2 : ℚ) ∧
     (centerNormExact h y1 y2 - sizeNormExact h y1 y2 / 2) * (h : ℚ) = (y1 : ℚ) ∧
     (centerNormExact h y1 y2 + sizeNormExact h y1 y2 / 2) * (h : ℚ) = (y2 : ℚ)) ∧
    (|(round6 (centerNorm w x1 x2) - round6 (sizeNorm w x1 x2) / 2) * (w : ℚ)
        - (x1 : ℚ)| ≤ (w : ℚ) / 100000 ∧
     |(round6 (centerNorm w x1 x2) + round6 (sizeNorm w x1 x2) / 2) * (w : ℚ)
        - (x2 : ℚ)| ≤ (w : ℚ) / 100000 ∧
     |(round6 (centerNorm h y1 y2) - round6 (sizeNorm h y1 y2) / 2) * (h : ℚ)
        - (y1 : ℚ)| ≤ (h : ℚ) / 100000 ∧
     |(round6 (centerNorm h y1 y2) + round6 (sizeNorm h y1 y2) / 2) * (h : ℚ)
        - (y2 : ℚ)| ≤ (h : ℚ) / 100000) := by
  obtain ⟨hex1, hex2⟩ := roundtrip_exact w x1 x2 (by omega)
  obtain ⟨hey1, hey2⟩ := roundtrip_exact h y1 y2 (by omega)
  obtain ⟨hfx1, hfx2⟩ := roundtrip_axis w x1 x2 hx1 hx12 hx2
  obtain ⟨hfy1, hfy2⟩ := roundtrip_axis h y1 y2 hy1 hy12 hy2
  exact ⟨⟨hex1, hex2, hey1, hey2⟩, hfx1, hfx2, hfy1, hfy2⟩

theorem C4_roundtrip_law_witness :
    ((0 : ℤ) ≤ 0 ∧ (0 : ℤ) < 2 ∧ (2 : ℤ) ≤ 2 ∧
      (0 : ℤ) ≤ 0 ∧ (0 : ℤ) < 1 ∧ (1 : ℤ) ≤ 1) ∧
    (((centerNormExact 2 0 2 - sizeNormExact 2 0 2 / 2) * ((2 : ℤ) : ℚ)
        = ((0 : ℤ) : ℚ) ∧
      (centerNormExact 2 0 2 + sizeNormExact 2 0 2 / 2) * ((2 : ℤ) : ℚ)
        = ((2 : ℤ) : ℚ) ∧
      (centerNormExact 1 0 1 - sizeNormExact 1 0 1 / 2) * ((1 : ℤ) : ℚ)
        = ((0 : ℤ) : ℚ) ∧
      (centerNormExact 1 0 1 + sizeNormExact 1 0 1 / 2) * ((1 : ℤ) : ℚ)
        = ((1 : ℤ) : ℚ)) ∧
     (|(round6 (centerNorm 2 0 2) - round6 (sizeNorm 2 0 2) / 2) * ((2 : ℤ) : ℚ)
        - ((0 : ℤ) : ℚ)| ≤ ((2 : ℤ) : ℚ) / 100000 ∧
      |(round6 (centerNorm 2 0 2) + round6 (sizeNorm 2 0 2) / 2) * ((2 : ℤ) : ℚ)
        - ((2 : ℤ) : ℚ)| ≤ ((2 : ℤ) : ℚ) / 100000 ∧
      |(round6 (centerNorm 1 0 1) - round6 (sizeNorm 1 0 1) / 2) * ((1 : ℤ) : ℚ)
        - ((0 : ℤ) : ℚ)| ≤ ((1 : ℤ) : ℚ) / 100000 ∧
      |(round6 (centerNorm 1 0 1) + round6 (sizeNorm 1 0 1) / 2) * ((1 : ℤ) : ℚ)
        - ((1 : ℤ) : ℚ)| ≤ ((1 : ℤ) : ℚ) / 100000)) :=
  ⟨by omega,
    C4_roundtrip_law 2 1 0 0 2 1 (by omega) (by omega) (by omega) (by omega)
      (by omega) (by omega)⟩

/-! ## Claim C5: class remapping -/

/-- C5: the converter's class remapping maps every strictly positive raw
class identifier `c` to `c - 1` and passes a raw identifier of exactly `0`
through unchanged; in particular raw 1 becomes 0, raw 0 stays 0, and raw 6
becomes 5 (convert_deeppcb.py lines 121-123, fix_and_setup_dataset.py
lines 141-143). -/
theorem C5_class_remap :
    (∀ c : ℤ, 0 < c → remapClass c = c - 1) ∧
      remapClass 0 = 0 ∧ remapClass 1 = 0 ∧ remapClass 6 = 5 := by
  refine ⟨fun c hc => ?_, by decide, by decide, by decide⟩
  unfold remapClass
  rw [if_pos hc]

theorem C5_class_remap_witness :
    (0 : ℤ) < 5 ∧ remapClass 5 = 5 - 1 :=
  ⟨by decide, C5_class_remap.1 5 (by decide)⟩

/-! ## Claim C6: malformed lines are skipped, later lines still convert -/

/-- C6: a line that fails to parse (fewer than 5 fields, or a field that is
not a valid integer, e.g. `"a,b,c"`) is skipped without aborting the file's
conversion: the written output equals that of the same file with the
malformed line removed, so every valid line after the malformed one is
still converted and written. -/
theorem C6_malformed_line_skipped (w h : ℕ) (pre post : List (List Char))
    (bad : List Char) (hbad : parseLine bad = none) :
    convertLines w h (pre ++ bad :: post) = convertLines w h (pre ++ post) := by
  induction pre with
  | nil =>
    simp only [List.nil_append]
    simp [convertLines, hbad]
  | cons l rest ih =>
    simp only [List.cons_append]
    cases hp : parseLine l with
    | none => simp [convertLines, hp, ih]
    | some v =>
      obtain ⟨x1, y1, x2, y2, c⟩ := v
      simp [convertLines, hp, ih]

theorem C6_malformed_line_skipped_witness :
    parseLine ("a,b,c".toList) = none ∧
    convertLines 2 2 ([] ++ "a,b,c".toList :: ["0 0 2 2 1".toList])
      = convertLines 2 2 ([] ++ ["0 0 2 2 1".toList]) :=
  ⟨by decide, C6_malformed_line_skipped 2 2 [] ["0 0 2 2 1".toList]
    ("a,b,c".toList) (by decide)⟩

/-! ## Claim C7: output is exactly the parsed lines, prior content discarded -/

theorem convertLines_length_of_ok (w h : ℕ) (lines : List (List Char))
    (hok : (convertLines w h lines).2 = true) :
    (convertLines w h lines).1.length
      = lines.countP (fun l => (parseLine l).isSome) := by
  induction lines with
  | nil => simp [convertLines]
  | cons l rest ih =>
    cases hp : parseLine l with
    | none =>
      rw [show convertLines w h (l :: rest) = convertLines w h rest by
        simp [convertLines, hp]] at hok ⊢
      simp [List.countP_cons, hp, ih hok]
    | some v =>
      obtain ⟨x1, y1, x2, y2, c⟩ := v
      by_cases hwh : w = 0 ∨ h = 0
      · rw [show convertLines w h (l :: rest) = ([], false) by
          simp [convertLines, hp, hwh]] at hok
        simp at hok
      · rw [show convertLines w h (l :: rest)
            = ((mkYoloLine w h x1 y1 x2 y2 c) :: (convertLines w h rest).1,
              (convertLines w h rest).2) by
          simp [convertLines, hp, hwh]] at hok ⊢
        simp [List.countP_cons, hp, ih hok]

/-- C7: after a successful run of the converter on one annotation file,
the output file contains exactly one line per successfully parsed input
line and nothing else; the prior content of the output file is discarded
(mode `'w'`, line 98), not appended to, so re-running yields identical
output whatever the file held before. -/
theorem C7_output_exactly_parsed_lines (w h : ℕ) (old old2 : List YoloLine)
    (lines : List (List Char))
    (hsucc : (convert_annotation_file (some (w, h)) old lines).1 = true) :
    (convert_annotation_file (some (w, h)) old lines).2.length
      = lines.countP (fun l => (parseLine l).isSome) ∧
    convert_annotation_file (some (w, h)) old lines
      = convert_annotation_file (some (w, h)) old2 lines := by
  refine ⟨?_, rfl⟩
  exact convertLines_length_of_ok w h lines hsucc

theorem C7_output_exactly_parsed_lines_witness :
    (convert_annotation_file (some (1, 1)) [] []).1 = true ∧
    ((convert_annotation_file (some (1, 1)) [] []).2.length
        = ([] : List (List Char)).countP (fun l => (parseLine l).isSome) ∧
      convert_annotation_file (some (1, 1)) [] []
        = convert_annotation_file (some (1, 1)) [⟨0, 0, 0, 0, 0⟩] []) :=
  ⟨rfl, C7_output_exactly_parsed_lines 1 1 [] [⟨0, 0, 0, 0, 0⟩] [] rfl⟩

/-! ## Claim C9: an opened image always yields a successful conversion -/

/-- C9: for every annotation file whose image opens successfully (any
positive dimensions), the converter returns success regardless of how many
lines were actually converted; an empty annotation file, or one whose
every line is blank or malformed, still produces an (empty) output label
file and counts as a successful conversion. -/
theorem C9_success_regardless_of_lines (w h : ℕ) (old : List YoloLine)
    (lines : List (List Char)) (hw : 0 < w) (hh : 0 < h) :
    (convert_annotation_file (some (w, h)) old lines).1 = true ∧
    ((∀ l ∈ lines, parseLine l = none) →
      (convert_annotation_file (some (w, h)) old lines).2 = []) := by
  have hwh : ¬(w = 0 ∨ h = 0) := by omega
  have hok : ∀ ls : List (List Char), (convertLines w h ls).2 = true := by
    intro ls
    induction ls with
    | nil => rfl
    | cons l rest ih =>
      cases hp : parseLine l with
      | none => simp [convertLines, hp, ih]
      | some v =>
        obtain ⟨x1, y1, x2, y2, c⟩ := v
        simp [convertLines, hp, hwh, ih]
  have hempty : ∀ ls : List (List Char), (∀ l ∈ ls, parseLine l = none) →
      (convertLines w h ls).1 = [] := by
    intro ls
    induction ls with
    | nil => intro _; rfl
    | cons l rest ih =>
      intro hall
      have hl := hall l (by simp)
      rw [show convertLines w h (l :: rest) = convertLines w h rest by
        simp [convertLines, hl]]
      exact ih fun x hx => hall x (by simp [hx])
  exact ⟨hok lines, fun hall => hempty lines hall⟩

theorem C9_success_regardless_of_lines_witness :
    (0 < 1 ∧ 0 < 1) ∧
    ((convert_annotation_file (some (1, 1)) [] [['a']]).1 = true ∧
      ((∀ l ∈ [['a']], parseLine l = none) →
        (convert_annotation_file (some (1, 1)) [] [['a']]).2 = [])) :=
  ⟨by omega, C9_success_regardless_of_lines 1 1 [] [['a']] (by omega) (by omega)⟩

/-! ## Claim C8: total absence of input signals failure -/

/-- C8: when the required input is entirely absent — no label files, or no
valid image-label pairs (for the splitter), and missing `PCBData` or zero
successful conversions (for the collector) — the pipeline step returns a
failing result instead of silently producing empty output; with the input
directory present, any other per-item failure leaves the overall result a
success (`True` as soon as one pair / one conversion survives). -/
theorem C8_failure_signalling (env : SplitEnv) (cenv : CollectEnv) :
    (env.labelFiles = [] → split_unified_dataset_result env = false) ∧
    (validPairs env = [] → split_unified_dataset_result env = false) ∧
    (validPairs env ≠ [] → split_unified_dataset_result env = true) ∧
    (cenv.pcbDataExists = false → collect_deeppcb_dataset_result cenv = false) ∧
    (totalConverted cenv = 0 → collect_deeppcb_dataset_result cenv = false) ∧
    (cenv.pcbDataExists = true → 0 < totalConverted cenv →
      collect_deeppcb_dataset_result cenv = true) := by
  refine ⟨?_, ?_, ?_, ?_, ?_, ?_⟩
  · intro h
    simp [split_unified_dataset_result, h]
  · intro h
    simp [split_unified_dataset_result, h]
  · intro h
    have h2 : env.labelFiles ≠ [] := by
      intro h0
      exact h (by simp [validPairs, h0])
    simp [split_unified_dataset_result, h, h2]
  · intro h
    simp [collect_deeppcb_dataset_result, h]
  · intro h
    simp [collect_deeppcb_dataset_result, h]
  · intro h1 h2
    simp [collect_deeppcb_dataset_result, h1, h2]

theorem C8_failure_signalling_witness :
    (⟨[], fun _ => none, fun _ => none⟩ : SplitEnv).labelFiles = [] ∧
    (⟨true, [⟨true, [⟨true, true⟩]⟩]⟩ : CollectEnv).pcbDataExists = true ∧
    0 < totalConverted ⟨true, [⟨true, [⟨true, true⟩]⟩]⟩ ∧
    split_unified_dataset_result ⟨[], fun _ => none, fun _ => none⟩ = false ∧
    collect_deeppcb_dataset_result ⟨true, [⟨true, [⟨true, true⟩]⟩]⟩ = true :=
  ⟨rfl, rfl, by decide,
    (C8_failure_signalling ⟨[], fun _ => none, fun _ => none⟩
      ⟨true, [⟨true, [⟨true, true⟩]⟩]⟩).1 rfl,
    (C8_failure_signalling ⟨[], fun _ => none, fun _ => none⟩
      ⟨true, [⟨true, [⟨true, true⟩]⟩]⟩).2.2.2.2.2 rfl (by decide)⟩

/-! ## Claim C10: image copied before conversion, kept on failure -/

/-- C10: for every matched (annotation, image) pair the image file is
copied into the unified image directory before annotation conversion is
attempted, and it is not removed if the conversion then fails: after a
failed conversion the image directory contains the new image while the
label directory is unchanged, so an image can exist with no corresponding
label file (the per-pair operation is not atomic). -/
theorem C10_image_copied_before_conversion (st : CollectState)
    (imageName labelName : String) (convertOk : Bool)
    (hfail : convertOk = false) :
    (processPair st imageName labelName convertOk).images
        = st.images ++ [imageName] ∧
    (processPair st imageName labelName convertOk).labels = st.labels ∧
    (labelName ∉ st.labels →
      imageName ∈ (processPair st imageName labelName convertOk).images ∧
      labelName ∉ (processPair st imageName labelName convertOk).labels) := by
  subst hfail
  refine ⟨rfl, rfl, fun hnl => ⟨?_, ?_⟩⟩
  · simp [processPair]
  · simpa [processPair] using hnl

theorem C10_image_copied_before_conversion_witness :
    false = false ∧
    ((processPair { images := [], labels := [] } "g1_01_test.jpg" "g1_01.txt"
        false).images = [] ++ ["g1_01_test.jpg"] ∧
      (processPair { images := [], labels := [] } "g1_01_test.jpg" "g1_01.txt"
        false).labels = [] ∧
      ("g1_01.txt" ∉ ({ images := [], labels := [] } : CollectState).labels →
        "g1_01_test.jpg" ∈ (processPair { images := [], labels := [] }
          "g1_01_test.jpg" "g1_01.txt" false).images ∧
        "g1_01.txt" ∉ (processPair { images := [], labels := [] }
          "g1_01_test.jpg" "g1_01.txt" false).labels)) :=
  ⟨rfl, C10_image_copied_before_conversion { images := [], labels := [] }
    "g1_01_test.jpg" "g1_01.txt" false rfl⟩
